import Mathlib

/-! # LongLeaf singly linked lists

A shallow embedding of the two linked-list class templates of the repository,

* `LinkedList<T>` of `LongLeaf/DataStructures/LinkedList.h` (camelCase members), and
* `data_structures::LinkedList<T>` of `LongLeaf/data_structures/LinkedList.h`
  (snake_case members, with the extra member `to_string`),

followed by theorems about their member functions.

Conventions of the embedding:

* A `Node*` is a `List T`: `[]` is `nullptr`, and `d :: n` is a pointer to a node with
  `data = d` and `next = n`.  The chain owned by a list object is acyclic and finite, since
  a node is only ever created by `new Node(value)` and linked into the chain once.
* A member function that mutates the object returns the object after the call.
* A member function that may write a message to `std::cerr` returns an `Outcome`: the object
  after the call together with the text written to `std::cerr` (`none` when nothing is written).
* The `int` parameter `position` is an `Int`.  The only arithmetic done on it is
  `position - 1` with `position > 0` and `++i` with `i < position - 1`, neither of which can
  overflow.  The counter of `length()` is an `Int` as well; it counts the nodes of the chain,
  and chains of `2^31` nodes or more, on which `len++` would overflow, are not modelled.
* Traversals with a cursor `current` carry the nodes already passed in a list `behind`
  (nearest node first), so that the chain owned by the object after an assignment through
  `current` is `behind.reverse ++ (the chain at current)`.
* A C string is a Lean `String`, one `Char` for each `char` before the terminator.
-/

set_option autoImplicit false

/-- What a call leaves behind: the object after the call and the text the call wrote to
`std::cerr`, `none` when it wrote nothing. -/
structure Outcome (L : Type) where
  /-- The object after the call. -/
  list : L
  /-- The text written to `std::cerr` during the call. -/
  cerr : Option String

/-- The class template `LinkedList<T>` of `LongLeaf/DataStructures/LinkedList.h`: its only data
member is `Node* head`. -/
structure LinkedList (T : Type) where
  /-- The chain `head` points to. -/
  head : List T

namespace LinkedList

variable {T : Type}

/-- The constructor `LinkedList() : head(nullptr)`. -/
def empty : LinkedList T := ⟨[]⟩

/-- The member `isEmpty`: `return head == nullptr;`. -/
def isEmpty (l : LinkedList T) : Bool :=
  match l.head with
  | [] => true
  | _ :: _ => false

/-- The member `insertAtBeginning`: the new node gets `next = head` and becomes `head`. -/
def insertAtBeginning (l : LinkedList T) (value : T) : LinkedList T :=
  ⟨value :: l.head⟩

/-- The loop `while (current->next != nullptr) current = current->next;` of `insertAtEnd`.
The arguments are the nodes behind `current`, `current->data` and `current->next`; the result is
the nodes behind the final `current` and its `data` (its `next` is `nullptr`). -/
def insertAtEndLoop : List T → T → List T → List T × T
  | behind, d, [] => (behind, d)
  | behind, d, n :: rest => insertAtEndLoop (d :: behind) n rest

/-- The member `insertAtEnd`. -/
def insertAtEnd (l : LinkedList T) (value : T) : LinkedList T :=
  match l.head with
  | [] => l.insertAtBeginning value
  | d :: next =>
    match insertAtEndLoop [] d next with
    | (behind, c) => ⟨behind.reverse ++ [c, value]⟩

/-- The loop `for (int i = 0; i < position - 1 && current != nullptr; ++i) current = current->next;`
of `insertAtPosition` and `removeAtPosition`.  The arguments after `position` are `i`, the nodes
behind `current` and the chain at `current`; the result is the nodes behind the final `current`
and the chain at the final `current`. -/
def seek (position : Int) : Int → List T → List T → List T × List T
  | _, behind, [] => (behind, [])
  | i, behind, d :: next =>
    if i < position - 1 then seek position (i + 1) (d :: behind) next
    else (behind, d :: next)

/-- The member `insertAtPosition`. -/
def insertAtPosition (l : LinkedList T) (value : T) (position : Int) :
    Outcome (LinkedList T) :=
  if position < 0 then ⟨l, some "Invalid position\n"⟩
  else if position = 0 then ⟨l.insertAtBeginning value, none⟩
  else
    match seek position 0 [] l.head with
    | (_, []) => ⟨l, some "Position out of range\n"⟩
    | (behind, c :: next) => ⟨⟨behind.reverse ++ c :: value :: next⟩, none⟩

/-- The loop
`while (current->next != nullptr && current->next->data != value) current = current->next;`
of `remove`.  The arguments after `value` are the nodes behind `current`, `current->data` and
`current->next`; the result is the same three things at the end of the loop. -/
def removeLoop [DecidableEq T] (value : T) : List T → T → List T → List T × T × List T
  | behind, d, [] => (behind, d, [])
  | behind, d, n :: rest =>
    if n ≠ value then removeLoop value (d :: behind) n rest
    else (behind, d, n :: rest)

/-- The member `remove`. -/
def remove [DecidableEq T] (l : LinkedList T) (value : T) : Outcome (LinkedList T) :=
  match l.head with
  | [] => ⟨l, some "List is empty\n"⟩
  | d :: next =>
    if d = value then ⟨⟨next⟩, none⟩
    else
      match removeLoop value [] d next with
      | (_, _, []) => ⟨l, some "Value not found\n"⟩
      | (behind, c, _ :: after) => ⟨⟨behind.reverse ++ c :: after⟩, none⟩

/-- The member `removeAtPosition`. -/
def removeAtPosition (l : LinkedList T) (position : Int) : Outcome (LinkedList T) :=
  match l.head with
  | [] => ⟨l, some "List is empty\n"⟩
  | d :: next =>
    if position < 0 then ⟨l, some "Invalid position\n"⟩
    else if position = 0 then ⟨⟨next⟩, none⟩
    else
      match seek position 0 [] (d :: next) with
      | (_, []) => ⟨l, some "Position out of range\n"⟩
      | (_, [_]) => ⟨l, some "Position out of range\n"⟩
      | (behind, c :: _ :: after) => ⟨⟨behind.reverse ++ c :: after⟩, none⟩

/-- The loop `while (current != nullptr) { len++; current = current->next; }` of `length`. -/
def lengthLoop : Int → List T → Int
  | len, [] => len
  | len, _ :: next => lengthLoop (len + 1) next

/-- The member `length`. -/
def length (l : LinkedList T) : Int :=
  lengthLoop 0 l.head

/-- The loop `while (current != nullptr) { std::cout << current->data << " "; ... }` of
`display`: `out` is the text written to `std::cout` so far, and `render d` the text that
`std::cout << d` writes. -/
def displayLoop (render : T → String) : String → List T → String
  | out, [] => out
  | out, d :: next => displayLoop render (out ++ render d ++ " ") next

/-- The member `display`: the text it writes to `std::cout` (`std::endl` writes a line break).
The object is `const` and is not changed. -/
def display (render : T → String) (l : LinkedList T) : String :=
  displayLoop render "" l.head ++ "\n"

end LinkedList

/-- How the handler that `strcat_s` invokes on a run-time constraint violation behaves.  The
handler is installed by the program that uses the list, not by the list: by default it ends the
program, and a program may install one that returns to `strcat_s`. -/
inductive Handler where
  /-- The handler ends the program. -/
  | terminates
  /-- The handler returns to `strcat_s`. -/
  | returns

/-- The library function `strcat_s(dest, size, src)`, for a buffer `dest` of `size` bytes that
holds a terminated string and a terminated string `src`.  When `dest`, `src` and the terminator
fit in `size` bytes, `src` is appended to `dest`.  Otherwise the constraint handler is invoked,
and if it returns, `dest[0]` is set to the terminator and an error code is returned.  The result
is the content of `dest` after the call, or `none` when the handler has ended the program. -/
def strcat_s (handler : Handler) (dest : String) (size : Nat) (src : String) : Option String :=
  if dest.length + src.length + 1 ≤ size then some (dest ++ src)
  else
    match handler with
    | .terminates => none
    | .returns => some ""

namespace data_structures

/-- The class template `data_structures::LinkedList<T>` of
`LongLeaf/data_structures/LinkedList.h`: its only data member is `Node* head`. -/
structure LinkedList (T : Type) where
  /-- The chain `head` points to. -/
  head : List T

namespace LinkedList

variable {T : Type}

/-- The constructor `LinkedList() : head(nullptr)`. -/
def empty : LinkedList T := ⟨[]⟩

/-- The member `is_empty`: `return head == nullptr;`. -/
def is_empty (l : LinkedList T) : Bool :=
  match l.head with
  | [] => true
  | _ :: _ => false

/-- The member `insert_at_beginning`: the new node gets `next = head` and becomes `head`. -/
def insert_at_beginning (l : LinkedList T) (value : T) : LinkedList T :=
  ⟨value :: l.head⟩

/-- The loop `while (current->next != nullptr) current = current->next;` of `insert_at_end`.
The arguments are the nodes behind `current`, `current->data` and `current->next`; the result is
the nodes behind the final `current` and its `data` (its `next` is `nullptr`). -/
def insert_at_end_loop : List T → T → List T → List T × T
  | behind, d, [] => (behind, d)
  | behind, d, n :: rest => insert_at_end_loop (d :: behind) n rest

/-- The member `insert_at_end`. -/
def insert_at_end (l : LinkedList T) (value : T) : LinkedList T :=
  match l.head with
  | [] => l.insert_at_beginning value
  | d :: next =>
    match insert_at_end_loop [] d next with
    | (behind, c) => ⟨behind.reverse ++ [c, value]⟩

/-- The loop `for (int i = 0; i < position - 1 && current != nullptr; ++i) current = current->next;`
of `insert_at_position` and `remove_at_position`.  The arguments after `position` are `i`, the
nodes behind `current` and the chain at `current`; the result is the nodes behind the final
`current` and the chain at the final `current`. -/
def seek (position : Int) : Int → List T → List T → List T × List T
  | _, behind, [] => (behind, [])
  | i, behind, d :: next =>
    if i < position - 1 then seek position (i + 1) (d :: behind) next
    else (behind, d :: next)

/-- The member `insert_at_position`. -/
def insert_at_position (l : LinkedList T) (value : T) (position : Int) :
    Outcome (LinkedList T) :=
  if position < 0 then ⟨l, some "Invalid position\n"⟩
  else if position = 0 then ⟨l.insert_at_beginning value, none⟩
  else
    match seek position 0 [] l.head with
    | (_, []) => ⟨l, some "Position out of range\n"⟩
    | (behind, c :: next) => ⟨⟨behind.reverse ++ c :: value :: next⟩, none⟩

/-- The loop
`while (current->next != nullptr && current->next->data != value) current = current->next;`
of `remove`.  The arguments after `value` are the nodes behind `current`, `current->data` and
`current->next`; the result is the same three things at the end of the loop. -/
def remove_loop [DecidableEq T] (value : T) : List T → T → List T → List T × T × List T
  | behind, d, [] => (behind, d, [])
  | behind, d, n :: rest =>
    if n ≠ value then remove_loop value (d :: behind) n rest
    else (behind, d, n :: rest)

/-- The member `remove`. -/
def remove [DecidableEq T] (l : LinkedList T) (value : T) : Outcome (LinkedList T) :=
  match l.head with
  | [] => ⟨l, some "List is empty\n"⟩
  | d :: next =>
    if d = value then ⟨⟨next⟩, none⟩
    else
      match remove_loop value [] d next with
      | (_, _, []) => ⟨l, some "Value not found\n"⟩
      | (behind, c, _ :: after) => ⟨⟨behind.reverse ++ c :: after⟩, none⟩

/-- The member `remove_at_position`. -/
def remove_at_position (l : LinkedList T) (position : Int) : Outcome (LinkedList T) :=
  match l.head with
  | [] => ⟨l, some "List is empty\n"⟩
  | d :: next =>
    if position < 0 then ⟨l, some "Invalid position\n"⟩
    else if position = 0 then ⟨⟨next⟩, none⟩
    else
      match seek position 0 [] (d :: next) with
      | (_, []) => ⟨l, some "Position out of range\n"⟩
      | (_, [_]) => ⟨l, some "Position out of range\n"⟩
      | (behind, c :: _ :: after) => ⟨⟨behind.reverse ++ c :: after⟩, none⟩

/-- The loop `while (current != nullptr) { len++; current = current->next; }` of `length`. -/
def length_loop : Int → List T → Int
  | len, [] => len
  | len, _ :: next => length_loop (len + 1) next

/-- The member `length`. -/
def length (l : LinkedList T) : Int :=
  length_loop 0 l.head

/-- The loop `while (current != nullptr) { std::cout << current->data << " "; ... }` of
`display`: `out` is the text written to `std::cout` so far, and `render d` the text that
`std::cout << d` writes. -/
def display_loop (render : T → String) : String → List T → String
  | out, [] => out
  | out, d :: next => display_loop render (out ++ render d ++ " ") next

/-- The member `display`: the text it writes to `std::cout`.  The object is `const` and is not
changed. -/
def display (render : T → String) (l : LinkedList T) : String :=
  display_loop render "" l.head ++ "\n"

/-- The constant `BUFFER_SIZE` of `to_string`. -/
def BUFFER_SIZE : Nat := 100

/-- The loop of `to_string`: `result` is the content of the buffer, and `render d` is the C
string `ss.str().c_str()` obtained after `ss << d`.  Each round appends `render d` and then
`" "` with `strcat_s`, whose return value the code ignores.  The result is the final content of
the buffer, or `none` when the constraint handler has ended the program. -/
def to_string_loop (handler : Handler) (render : T → String) : String → List T → Option String
  | result, [] => some result
  | result, d :: next =>
    match strcat_s handler result BUFFER_SIZE (render d) with
    | none => none
    | some r1 =>
      match strcat_s handler r1 BUFFER_SIZE " " with
      | none => none
      | some r2 => to_string_loop handler render r2 next

/-- The member `to_string`: the buffer starts as the empty string (`result[0] = 0`), and the
string returned is the content of the buffer after the loop. -/
def to_string (handler : Handler) (render : T → String) (l : LinkedList T) : Option String :=
  to_string_loop handler render "" l.head

end LinkedList

end data_structures

/-- The text that `toString()` is specified to return for a chain: each element's textual form
followed by one space, in head-to-tail order. -/
def rendering {T : Type} (render : T → String) : List T → String
  | [] => ""
  | d :: rest => render d ++ " " ++ rendering render rest

/-- The text of a chain with one space between consecutive elements and none after the last
one: the reading of "space-separated" that puts separators only between elements. -/
def spaceSeparated {T : Type} (render : T → String) (xs : List T) : String :=
  " ".intercalate (xs.map render)

/-- One call of a mutating member of `LinkedList<T>`, with its arguments. -/
inductive Call (T : Type) where
  /-- The call `insertAtBeginning(value)`. -/
  | insertAtBeginning (value : T)
  /-- The call `insertAtEnd(value)`. -/
  | insertAtEnd (value : T)
  /-- The call `insertAtPosition(value, position)`. -/
  | insertAtPosition (value : T) (position : Int)
  /-- The call `remove(value)`. -/
  | remove (value : T)
  /-- The call `removeAtPosition(position)`. -/
  | removeAtPosition (position : Int)

/-- The list after one call, whether the call succeeded or wrote an error. -/
def Call.run {T : Type} [DecidableEq T] (l : LinkedList T) : Call T → LinkedList T
  | .insertAtBeginning value => l.insertAtBeginning value
  | .insertAtEnd value => l.insertAtEnd value
  | .insertAtPosition value position => (l.insertAtPosition value position).list
  | .remove value => (l.remove value).list
  | .removeAtPosition position => (l.removeAtPosition position).list

/-- The list reached from the empty list by a series of calls, made in the order of `calls`. -/
def runCalls {T : Type} [DecidableEq T] (calls : List (Call T)) : LinkedList T :=
  calls.foldl Call.run LinkedList.empty

/-! ## The free store, for the destructors

The destructors release nodes, so for them a node has an address.  A `Node*` is an
`Option Nat`, `none` for `nullptr`. -/

/-- The `struct Node` of both classes: `data` and the pointer `next`. -/
structure Node (T : Type) where
  /-- The member `data`. -/
  data : T
  /-- The member `next`. -/
  next : Option Nat
deriving DecidableEq

/-- The free store: for each address the node that lives there, `none` when no node does. -/
abbrev Store (T : Type) := Nat → Option (Node T)

/-- The state of a destructor while it runs: the free store, the member `head`, and the addresses
that have been passed to `delete`, in the order of the calls. -/
structure Teardown (T : Type) where
  /-- The free store. -/
  store : Store T
  /-- The member `head`. -/
  head : Option Nat
  /-- The addresses released so far. -/
  released : List Nat

/-- The store holds the chain `nodes`, given as the address and the `data` of each node from
head to tail: each node lives at its address, its `next` is the address of the node after it,
and the `next` of the last node is `nullptr`. -/
def Holds {T : Type} (store : Store T) : List (Nat × T) → Prop
  | [] => True
  | (a, d) :: rest => store a = some ⟨d, (rest.head?).map Prod.fst⟩ ∧ Holds store rest

/-- The value of `head` for a chain: the address of its first node, `nullptr` when it has none. -/
def headOf {T : Type} (nodes : List (Nat × T)) : Option Nat :=
  (nodes.head?).map Prod.fst

namespace LinkedList

variable {T : Type}

/-- The destructor `~LinkedList`:
`while (head != nullptr) { Node* temp = head; head = head->next; delete temp; }`.
Each round reads `head->next`, which needs a live node at `head`, and then releases that node.
The first argument bounds the number of rounds.  The result is `none` when the bound is reached
with `head != nullptr`, or when `head` points to no live node (reading `head->next` and
`delete temp` are then undefined). -/
def destructorLoop : Nat → Teardown T → Option (Teardown T)
  | _, ⟨store, none, released⟩ => some ⟨store, none, released⟩
  | 0, ⟨_, some _, _⟩ => none
  | fuel + 1, ⟨store, some temp, released⟩ =>
    match store temp with
    | none => none
    | some node =>
      destructorLoop fuel
        ⟨fun a => if a = temp then none else store a, node.next, released ++ [temp]⟩

end LinkedList

namespace data_structures.LinkedList

variable {T : Type}

/-- The destructor `~LinkedList`:
`while (head != nullptr) { const Node* temp = head; head = head->next; delete temp; }`.
Each round reads `head->next`, which needs a live node at `head`, and then releases that node.
The first argument bounds the number of rounds.  The result is `none` when the bound is reached
with `head != nullptr`, or when `head` points to no live node. -/
def destructor_loop : Nat → Teardown T → Option (Teardown T)
  | _, ⟨store, none, released⟩ => some ⟨store, none, released⟩
  | 0, ⟨_, some _, _⟩ => none
  | fuel + 1, ⟨store, some temp, released⟩ =>
    match store temp with
    | none => none
    | some node =>
      destructor_loop fuel
        ⟨fun a => if a = temp then none else store a, node.next, released ++ [temp]⟩

end data_structures.LinkedList

/-- A store with a chain of two nodes: `1` at address `10` and `2` at address `20`. -/
def twoNodeStore : Store Int := fun a =>
  if a = 10 then some ⟨1, some 20⟩ else if a = 20 then some ⟨2, none⟩ else none

namespace data_structures.LinkedList

/-- The list after `insert_at_end(1)`, `insert_at_end(2)`, `insert_at_end(3)` on the empty list
of integers. -/
def scenarioFilled : LinkedList Int :=
  ((empty.insert_at_end 1).insert_at_end 2).insert_at_end 3

/-- The outcome of `remove_at_position(1)` on `scenarioFilled`. -/
def scenarioRemovedAt : Outcome (LinkedList Int) :=
  scenarioFilled.remove_at_position 1

/-- The outcome of `remove(1)` after that. -/
def scenarioRemoved : Outcome (LinkedList Int) :=
  scenarioRemovedAt.list.remove 1

/-- The outcome of `remove(9)` after that. -/
def scenarioMissing : Outcome (LinkedList Int) :=
  scenarioRemoved.list.remove 9

end data_structures.LinkedList

/-! ## Facts about chains -/

/-- When the chain `k` nodes down starts with `c`, taking one node more adds `c`. -/
theorem take_succ_of_drop_eq_cons {T : Type} {xs : List T} {k : Nat} {c : T} {rest : List T}
    (h : xs.drop k = c :: rest) : xs.take (k + 1) = xs.take k ++ [c] := by
  induction k generalizing xs with
  | zero =>
    cases xs with
    | nil => simp at h
    | cons x xs => simp at h; simp [h.1]
  | succ k ih =>
    cases xs with
    | nil => simp at h
    | cons x xs => simp at h; simp [ih h]

/-- When the chain `k` nodes down is `c :: rest`, the chain `k + 1` nodes down is `rest`. -/
theorem drop_succ_of_drop_eq_cons {T : Type} {xs : List T} {k : Nat} {c : T} {rest : List T}
    (h : xs.drop k = c :: rest) : xs.drop (k + 1) = rest := by
  have h1 : xs.drop (k + 1) = (xs.drop k).drop 1 := by rw [List.drop_drop]
  rw [h1, h]; rfl

/-! ## The traversal loops of the camelCase class -/

namespace LinkedList

variable {T : Type}

/-- The `for` loop stops after `position - 1 - i` steps, or at the end of the chain. -/
theorem seek_eq (position : Int) (current : List T) (i : Int) (behind : List T) :
    seek position i behind current =
      ((current.take (position - 1 - i).toNat).reverse ++ behind,
        current.drop (position - 1 - i).toNat) := by
  induction current generalizing i behind with
  | nil => simp [seek]
  | cons d next ih =>
    unfold seek
    split_ifs with h
    · have hk : (position - 1 - i).toNat = (position - 1 - (i + 1)).toNat + 1 := by omega
      rw [ih, hk]
      simp
    · have hk : (position - 1 - i).toNat = 0 := by omega
      simp [hk]

/-- The counting loop adds the number of nodes of the chain to the counter. -/
theorem lengthLoop_eq (current : List T) (len : Int) :
    lengthLoop len current = len + current.length := by
  induction current generalizing len with
  | nil => simp [lengthLoop]
  | cons d next ih => simp [lengthLoop, ih]; ring

/-- The member `length` returns the number of nodes of the chain. -/
theorem length_eq (l : LinkedList T) : l.length = l.head.length := by
  simp [length, lengthLoop_eq]

/-- What `insertAtPosition` does, case by case. -/
theorem insertAtPosition_eq (l : LinkedList T) (value : T) (position : Int) :
    l.insertAtPosition value position =
      if position < 0 then ⟨l, some "Invalid position\n"⟩
      else if position.toNat ≤ l.head.length then
        ⟨⟨l.head.take position.toNat ++ value :: l.head.drop position.toNat⟩, none⟩
      else ⟨l, some "Position out of range\n"⟩ := by
  unfold insertAtPosition
  by_cases hneg : position < 0
  · simp [hneg]
  by_cases hzero : position = 0
  · subst hzero; simp [insertAtBeginning]
  simp only [hneg, hzero, if_false, seek_eq, sub_zero, List.append_nil]
  obtain ⟨k, hk⟩ : ∃ k : Nat, position.toNat = k + 1 := ⟨position.toNat - 1, by omega⟩
  have hk1 : (position - 1).toNat = k := by omega
  rw [hk, hk1]
  cases hd : l.head.drop k with
  | nil =>
    have hlen : l.head.length ≤ k := by simpa using hd
    have : ¬ (k + 1 ≤ l.head.length) := by omega
    simp [this]
  | cons c next =>
    have hlen : k < l.head.length := by
      by_contra hcon
      have : l.head.drop k = [] := by simp; omega
      rw [this] at hd; cases hd
    have : k + 1 ≤ l.head.length := hlen
    simp [this, take_succ_of_drop_eq_cons hd, drop_succ_of_drop_eq_cons hd]

/-- What `removeAtPosition` does, case by case. -/
theorem removeAtPosition_eq (l : LinkedList T) (position : Int) :
    l.removeAtPosition position =
      if l.head.length = 0 then ⟨l, some "List is empty\n"⟩
      else if position < 0 then ⟨l, some "Invalid position\n"⟩
      else if position.toNat < l.head.length then
        ⟨⟨l.head.take position.toNat ++ l.head.drop (position.toNat + 1)⟩, none⟩
      else ⟨l, some "Position out of range\n"⟩ := by
  obtain ⟨xs⟩ := l
  cases xs with
  | nil => simp [removeAtPosition]
  | cons d next =>
    simp only [removeAtPosition]
    by_cases hneg : position < 0
    · simp [hneg]
    by_cases hzero : position = 0
    · subst hzero; simp
    simp only [hneg, hzero, if_false, seek_eq, sub_zero, List.append_nil]
    obtain ⟨k, hk⟩ : ∃ k : Nat, position.toNat = k + 1 := ⟨position.toNat - 1, by omega⟩
    have hk1 : (position - 1).toNat = k := by omega
    rw [hk, hk1]
    generalize hxs : d :: next = xs
    have hne : xs.length ≠ 0 := by rw [← hxs]; simp
    cases hd : xs.drop k with
    | nil =>
      have hlen : xs.length ≤ k := by simpa using hd
      have : ¬ (k + 1 < xs.length) := by omega
      simp [this, hne]
    | cons c rest =>
      have hd1 := drop_succ_of_drop_eq_cons hd
      cases rest with
      | nil =>
        have hlen : xs.length ≤ k + 1 := by simpa using hd1
        have : ¬ (k + 1 < xs.length) := by omega
        simp [this, hne]
      | cons x after =>
        have hlen : k + 1 < xs.length := by
          by_contra hcon
          have : xs.drop (k + 1) = [] := by simp; omega
          rw [this] at hd1; cases hd1
        simp [hlen, hne, take_succ_of_drop_eq_cons hd, drop_succ_of_drop_eq_cons hd1]

/-- The search loop stops at the node in front of the first node that holds `value`. -/
theorem removeLoop_found [DecidableEq T] (value : T) (pre after : List T)
    (hpre : value ∉ pre) (behind : List T) (d : T) :
    ∃ b c, removeLoop value behind d (pre ++ value :: after) = (b, c, value :: after) ∧
      b.reverse ++ [c] = behind.reverse ++ d :: pre := by
  induction pre generalizing behind d with
  | nil => exact ⟨behind, d, by simp [removeLoop], by simp⟩
  | cons x pre ih =>
    have hx : x ≠ value := fun h => hpre (by simp [h])
    have hpre1 : value ∉ pre := fun h => hpre (by simp [h])
    obtain ⟨b, c, h1, h2⟩ := ih hpre1 (d :: behind) x
    exact ⟨b, c, by simp [removeLoop, hx, h1], by simp [h2]⟩

/-- The search loop reaches the last node when no node after `current` holds `value`. -/
theorem removeLoop_not_found [DecidableEq T] (value : T) (next : List T)
    (hnext : value ∉ next) (behind : List T) (d : T) :
    ∃ b c, removeLoop value behind d next = (b, c, []) := by
  induction next generalizing behind d with
  | nil => exact ⟨behind, d, by simp [removeLoop]⟩
  | cons x next ih =>
    have hx : x ≠ value := fun h => hnext (by simp [h])
    have hnext1 : value ∉ next := fun h => hnext (by simp [h])
    obtain ⟨b, c, h1⟩ := ih hnext1 (d :: behind) x
    exact ⟨b, c, by simp [removeLoop, hx, h1]⟩

/-- On a chain whose first node holding `value` comes after the nodes `before`, `remove` unlinks
that node and writes nothing to `std::cerr`. -/
theorem remove_first [DecidableEq T] (value : T) (before after : List T)
    (hbefore : value ∉ before) :
    remove ⟨before ++ value :: after⟩ value = ⟨⟨before ++ after⟩, none⟩ := by
  cases before with
  | nil => simp [remove]
  | cons d pre =>
    have hd : d ≠ value := fun h => hbefore (by simp [h])
    have hpre : value ∉ pre := fun h => hbefore (by simp [h])
    obtain ⟨b, c, h1, h2⟩ := removeLoop_found value pre after hpre [] d
    have h3 : b.reverse ++ c :: after = d :: (pre ++ after) := by
      have : b.reverse ++ c :: after = (b.reverse ++ [c]) ++ after := by simp
      rw [this, h2]; simp
    simp [remove, hd, h1, h3]

/-- On a non-empty chain without `value`, `remove` changes nothing and reports
`Value not found`. -/
theorem remove_absent [DecidableEq T] (l : LinkedList T) (value : T)
    (hne : l.head ≠ []) (habs : value ∉ l.head) :
    l.remove value = ⟨l, some "Value not found\n"⟩ := by
  obtain ⟨xs⟩ := l
  cases xs with
  | nil => exact absurd rfl hne
  | cons d next =>
    have hd : d ≠ value := fun h => habs (by simp [h])
    have hnext : value ∉ next := fun h => habs (by simp [h])
    obtain ⟨b, c, h1⟩ := removeLoop_not_found value next hnext [] d
    simp [remove, hd, h1]

/-- On the empty chain, `remove` changes nothing and reports `List is empty`. -/
theorem remove_nil [DecidableEq T] (value : T) :
    remove (⟨[]⟩ : LinkedList T) value = ⟨⟨[]⟩, some "List is empty\n"⟩ := rfl

/-- The writing loop of `display` adds the rendering of the chain to the text written. -/
theorem displayLoop_eq (render : T → String) (current : List T) (out : String) :
    displayLoop render out current = out ++ rendering render current := by
  induction current generalizing out with
  | nil => simp [displayLoop, rendering]
  | cons d next ih => simp [displayLoop, rendering, ih, String.append_assoc]

/-- The traversal of `insertAtEnd` keeps the chain and ends on its last node. -/
theorem insertAtEndLoop_eq (next : List T) (behind : List T) (d : T) :
    (insertAtEndLoop behind d next).1.reverse ++ [(insertAtEndLoop behind d next).2] =
      behind.reverse ++ d :: next := by
  induction next generalizing behind d with
  | nil => simp [insertAtEndLoop]
  | cons x next ih => simp [insertAtEndLoop, ih]

/-- The member `insertAtEnd` appends the value to the chain. -/
theorem insertAtEnd_head (l : LinkedList T) (value : T) :
    (l.insertAtEnd value).head = l.head ++ [value] := by
  obtain ⟨xs⟩ := l
  cases xs with
  | nil => simp [insertAtEnd, insertAtBeginning]
  | cons d next =>
    have h := insertAtEndLoop_eq next [] d
    simp only [insertAtEnd]
    have : (insertAtEndLoop [] d next).1.reverse ++ [(insertAtEndLoop [] d next).2, value] =
        ((insertAtEndLoop [] d next).1.reverse ++ [(insertAtEndLoop [] d next).2]) ++ [value] := by
      simp
    rw [this, h]; simp

end LinkedList

/-! ## The loops of the snake_case class -/

namespace data_structures.LinkedList

variable {T : Type}

/-- The `for` loop stops after `position - 1 - i` steps, or at the end of the chain. -/
theorem seek_steps (position : Int) (current : List T) (i : Int) (behind : List T) :
    seek position i behind current =
      ((current.take (position - 1 - i).toNat).reverse ++ behind,
        current.drop (position - 1 - i).toNat) := by
  induction current generalizing i behind with
  | nil => simp [seek]
  | cons d next ih =>
    unfold seek
    split_ifs with h
    · have hk : (position - 1 - i).toNat = (position - 1 - (i + 1)).toNat + 1 := by omega
      rw [ih, hk]
      simp
    · have hk : (position - 1 - i).toNat = 0 := by omega
      simp [hk]

/-- The counting loop adds the number of nodes of the chain to the counter. -/
theorem length_loop_eq (current : List T) (len : Int) :
    length_loop len current = len + current.length := by
  induction current generalizing len with
  | nil => simp [length_loop]
  | cons d next ih => simp [length_loop, ih]; ring

/-- The member `length` returns the number of nodes of the chain. -/
theorem length_eq_count (l : LinkedList T) : l.length = l.head.length := by
  simp [length, length_loop_eq]

/-- What `insert_at_position` does, case by case. -/
theorem insert_at_position_eq (l : LinkedList T) (value : T) (position : Int) :
    l.insert_at_position value position =
      if position < 0 then ⟨l, some "Invalid position\n"⟩
      else if position.toNat ≤ l.head.length then
        ⟨⟨l.head.take position.toNat ++ value :: l.head.drop position.toNat⟩, none⟩
      else ⟨l, some "Position out of range\n"⟩ := by
  unfold insert_at_position
  by_cases hneg : position < 0
  · simp [hneg]
  by_cases hzero : position = 0
  · subst hzero; simp [insert_at_beginning]
  simp only [hneg, hzero, if_false, seek_steps, sub_zero, List.append_nil]
  obtain ⟨k, hk⟩ : ∃ k : Nat, position.toNat = k + 1 := ⟨position.toNat - 1, by omega⟩
  have hk1 : (position - 1).toNat = k := by omega
  rw [hk, hk1]
  cases hd : l.head.drop k with
  | nil =>
    have hlen : l.head.length ≤ k := by simpa using hd
    have : ¬ (k + 1 ≤ l.head.length) := by omega
    simp [this]
  | cons c next =>
    have hlen : k < l.head.length := by
      by_contra hcon
      have : l.head.drop k = [] := by simp; omega
      rw [this] at hd; cases hd
    have : k + 1 ≤ l.head.length := hlen
    simp [this, take_succ_of_drop_eq_cons hd, drop_succ_of_drop_eq_cons hd]

/-- What `remove_at_position` does, case by case. -/
theorem remove_at_position_eq (l : LinkedList T) (position : Int) :
    l.remove_at_position position =
      if l.head.length = 0 then ⟨l, some "List is empty\n"⟩
      else if position < 0 then ⟨l, some "Invalid position\n"⟩
      else if position.toNat < l.head.length then
        ⟨⟨l.head.take position.toNat ++ l.head.drop (position.toNat + 1)⟩, none⟩
      else ⟨l, some "Position out of range\n"⟩ := by
  obtain ⟨xs⟩ := l
  cases xs with
  | nil => simp [remove_at_position]
  | cons d next =>
    simp only [remove_at_position]
    by_cases hneg : position < 0
    · simp [hneg]
    by_cases hzero : position = 0
    · subst hzero; simp
    simp only [hneg, hzero, if_false, seek_steps, sub_zero, List.append_nil]
    obtain ⟨k, hk⟩ : ∃ k : Nat, position.toNat = k + 1 := ⟨position.toNat - 1, by omega⟩
    have hk1 : (position - 1).toNat = k := by omega
    rw [hk, hk1]
    generalize hxs : d :: next = xs
    have hne : xs.length ≠ 0 := by rw [← hxs]; simp
    cases hd : xs.drop k with
    | nil =>
      have hlen : xs.length ≤ k := by simpa using hd
      have : ¬ (k + 1 < xs.length) := by omega
      simp [this, hne]
    | cons c rest =>
      have hd1 := drop_succ_of_drop_eq_cons hd
      cases rest with
      | nil =>
        have hlen : xs.length ≤ k + 1 := by simpa using hd1
        have : ¬ (k + 1 < xs.length) := by omega
        simp [this, hne]
      | cons x after =>
        have hlen : k + 1 < xs.length := by
          by_contra hcon
          have : xs.drop (k + 1) = [] := by simp; omega
          rw [this] at hd1; cases hd1
        simp [hlen, hne, take_succ_of_drop_eq_cons hd, drop_succ_of_drop_eq_cons hd1]

/-- The search loop stops at the node in front of the first node that holds `value`. -/
theorem remove_loop_found [DecidableEq T] (value : T) (pre after : List T)
    (hpre : value ∉ pre) (behind : List T) (d : T) :
    ∃ b c, remove_loop value behind d (pre ++ value :: after) = (b, c, value :: after) ∧
      b.reverse ++ [c] = behind.reverse ++ d :: pre := by
  induction pre generalizing behind d with
  | nil => exact ⟨behind, d, by simp [remove_loop], by simp⟩
  | cons x pre ih =>
    have hx : x ≠ value := fun h => hpre (by simp [h])
    have hpre1 : value ∉ pre := fun h => hpre (by simp [h])
    obtain ⟨b, c, h1, h2⟩ := ih hpre1 (d :: behind) x
    exact ⟨b, c, by simp [remove_loop, hx, h1], by simp [h2]⟩

/-- The search loop reaches the last node when no node after `current` holds `value`. -/
theorem remove_loop_not_found [DecidableEq T] (value : T) (next : List T)
    (hnext : value ∉ next) (behind : List T) (d : T) :
    ∃ b c, remove_loop value behind d next = (b, c, []) := by
  induction next generalizing behind d with
  | nil => exact ⟨behind, d, by simp [remove_loop]⟩
  | cons x next ih =>
    have hx : x ≠ value := fun h => hnext (by simp [h])
    have hnext1 : value ∉ next := fun h => hnext (by simp [h])
    obtain ⟨b, c, h1⟩ := ih hnext1 (d :: behind) x
    exact ⟨b, c, by simp [remove_loop, hx, h1]⟩

/-- On a chain whose first node holding `value` comes after the nodes `before`, `remove` unlinks
that node and writes nothing to `std::cerr`. -/
theorem remove_first_occurrence [DecidableEq T] (value : T) (before after : List T)
    (hbefore : value ∉ before) :
    remove ⟨before ++ value :: after⟩ value = ⟨⟨before ++ after⟩, none⟩ := by
  cases before with
  | nil => simp [remove]
  | cons d pre =>
    have hd : d ≠ value := fun h => hbefore (by simp [h])
    have hpre : value ∉ pre := fun h => hbefore (by simp [h])
    obtain ⟨b, c, h1, h2⟩ := remove_loop_found value pre after hpre [] d
    have h3 : b.reverse ++ c :: after = d :: (pre ++ after) := by
      have : b.reverse ++ c :: after = (b.reverse ++ [c]) ++ after := by simp
      rw [this, h2]; simp
    simp [remove, hd, h1, h3]

/-- On a non-empty chain without `value`, `remove` changes nothing and reports
`Value not found`. -/
theorem remove_missing [DecidableEq T] (l : LinkedList T) (value : T)
    (hne : l.head ≠ []) (habs : value ∉ l.head) :
    l.remove value = ⟨l, some "Value not found\n"⟩ := by
  obtain ⟨xs⟩ := l
  cases xs with
  | nil => exact absurd rfl hne
  | cons d next =>
    have hd : d ≠ value := fun h => habs (by simp [h])
    have hnext : value ∉ next := fun h => habs (by simp [h])
    obtain ⟨b, c, h1⟩ := remove_loop_not_found value next hnext [] d
    simp [remove, hd, h1]

/-- On the empty chain, `remove` changes nothing and reports `List is empty`. -/
theorem remove_empty [DecidableEq T] (value : T) :
    remove (⟨[]⟩ : LinkedList T) value = ⟨⟨[]⟩, some "List is empty\n"⟩ := rfl

/-- The traversal of `insert_at_end` keeps the chain and ends on its last node. -/
theorem insert_at_end_loop_eq (next : List T) (behind : List T) (d : T) :
    (insert_at_end_loop behind d next).1.reverse ++ [(insert_at_end_loop behind d next).2] =
      behind.reverse ++ d :: next := by
  induction next generalizing behind d with
  | nil => simp [insert_at_end_loop]
  | cons x next ih => simp [insert_at_end_loop, ih]

/-- The member `insert_at_end` appends the value to the chain. -/
theorem insert_at_end_head (l : LinkedList T) (value : T) :
    (l.insert_at_end value).head = l.head ++ [value] := by
  obtain ⟨xs⟩ := l
  cases xs with
  | nil => simp [insert_at_end, insert_at_beginning]
  | cons d next =>
    have h := insert_at_end_loop_eq next [] d
    simp only [insert_at_end]
    have : (insert_at_end_loop [] d next).1.reverse ++ [(insert_at_end_loop [] d next).2, value] =
        ((insert_at_end_loop [] d next).1.reverse ++ [(insert_at_end_loop [] d next).2]) ++ [value] := by
      simp
    rw [this, h]; simp

/-- The writing loop of `display` adds the rendering of the chain to the text written. -/
theorem display_loop_eq (render : T → String) (current : List T) (out : String) :
    display_loop render out current = out ++ rendering render current := by
  induction current generalizing out with
  | nil => simp [display_loop, rendering]
  | cons d next ih => simp [display_loop, rendering, ih, String.append_assoc]

/-- While the rendering of the chain fits in the buffer together with its terminator, neither
call of `strcat_s` in the loop of `to_string` violates its constraint, and the loop appends the
rendering of the chain to the buffer. -/
theorem to_string_loop_fits (handler : Handler) (render : T → String) (current : List T)
    (result : String)
    (hfit : result.length + (rendering render current).length + 1 ≤ BUFFER_SIZE) :
    to_string_loop handler render result current = some (result ++ rendering render current) := by
  induction current generalizing result with
  | nil => simp [to_string_loop, rendering]
  | cons d next ih =>
    simp only [rendering, String.length_append] at hfit
    have hsp : " ".length = 1 := rfl
    rw [hsp] at hfit
    have h1 : result.length + (render d).length + 1 ≤ BUFFER_SIZE := by omega
    have h2 : (result ++ render d).length + " ".length + 1 ≤ BUFFER_SIZE := by
      rw [String.length_append, hsp]; omega
    have h3 : (result ++ render d ++ " ").length + (rendering render next).length + 1
        ≤ BUFFER_SIZE := by
      rw [String.length_append, String.length_append, hsp]; omega
    simp only [to_string_loop, strcat_s, h1, h2, if_true]
    rw [ih _ h3]
    simp [rendering, String.append_assoc]

end data_structures.LinkedList

/-! ## Positional insertion -/

/-- C1: for every sequence `xs`, value `v` and position `p` with `0 ≤ p ≤ length`,
`insertAtPosition(v, p)` writes no error, and the chain after the call is the first `p` nodes of
`xs`, then `v`, then the remaining nodes of `xs` in their order; exactly `p` old nodes precede
`v`, and `length()` has grown by one.  The same holds for `insert_at_position`. -/
theorem C1_insertAtPosition_inserts {T : Type} (xs : List T) (v : T) (p : Int)
    (h0 : 0 ≤ p) (hp : p ≤ xs.length) :
    (LinkedList.insertAtPosition ⟨xs⟩ v p =
        ⟨⟨xs.take p.toNat ++ v :: xs.drop p.toNat⟩, none⟩ ∧
      (LinkedList.insertAtPosition ⟨xs⟩ v p).list.length = (LinkedList.mk xs).length + 1) ∧
    (data_structures.LinkedList.insert_at_position ⟨xs⟩ v p =
        ⟨⟨xs.take p.toNat ++ v :: xs.drop p.toNat⟩, none⟩ ∧
      (data_structures.LinkedList.insert_at_position ⟨xs⟩ v p).list.length =
        (data_structures.LinkedList.mk xs).length + 1) ∧
    ((xs.take p.toNat).length : Int) = p := by
  have hneg : ¬ p < 0 := by omega
  have hle : p.toNat ≤ xs.length := by omega
  have hcamel : LinkedList.insertAtPosition ⟨xs⟩ v p =
      ⟨⟨xs.take p.toNat ++ v :: xs.drop p.toNat⟩, none⟩ := by
    rw [LinkedList.insertAtPosition_eq]; simp [hneg, hle]
  have hsnake : data_structures.LinkedList.insert_at_position ⟨xs⟩ v p =
      ⟨⟨xs.take p.toNat ++ v :: xs.drop p.toNat⟩, none⟩ := by
    rw [data_structures.LinkedList.insert_at_position_eq]; simp [hneg, hle]
  refine ⟨⟨hcamel, ?_⟩, ⟨hsnake, ?_⟩, ?_⟩
  · rw [hcamel, LinkedList.length_eq, LinkedList.length_eq]
    simp; omega
  · rw [hsnake, data_structures.LinkedList.length_eq_count,
      data_structures.LinkedList.length_eq_count]
    simp; omega
  · simp; omega

/-- C1 at the chain `1 2 3`, value `9` and position `2`: the chain becomes `1 2 9 3`. -/
theorem C1_insertAtPosition_inserts_witness :
    (0 : Int) ≤ 2 ∧ (2 : Int) ≤ ([1, 2, 3] : List Int).length ∧
      LinkedList.insertAtPosition ⟨[1, 2, 3]⟩ (9 : Int) 2 = ⟨⟨[1, 2, 9, 3]⟩, none⟩ :=
  ⟨by decide, by decide,
    (C1_insertAtPosition_inserts [1, 2, 3] (9 : Int) 2 (by decide) (by decide)).1.1⟩

/-- C2: for every list `l`, value `v` and integer position `p`, `insertAtPosition(v, p)` writes
an error exactly when `p < 0` or `p > length()`; the error is `Invalid position` exactly when
`p < 0` and `Position out of range` exactly when `p > length()`; and a call that writes an error
leaves the list, content and length, as it was. -/
theorem C2_insertAtPosition_errors {T : Type} (l : LinkedList T) (v : T) (p : Int) :
    ((l.insertAtPosition v p).cerr ≠ none ↔ p < 0 ∨ p > l.length) ∧
    ((l.insertAtPosition v p).cerr = some "Invalid position\n" ↔ p < 0) ∧
    ((l.insertAtPosition v p).cerr = some "Position out of range\n" ↔ p > l.length) ∧
    ((l.insertAtPosition v p).cerr ≠ none →
      (l.insertAtPosition v p).list = l ∧ (l.insertAtPosition v p).list.length = l.length) := by
  have hlen : l.length = l.head.length := LinkedList.length_eq l
  rw [LinkedList.insertAtPosition_eq, hlen]
  by_cases hneg : p < 0
  · have : ¬ p > (l.head.length : Int) := by omega
    simp [hneg, this, hlen]
  · by_cases hle : p.toNat ≤ l.head.length
    · have : ¬ p > (l.head.length : Int) := by omega
      simp [hneg, hle, this]
    · have : p > (l.head.length : Int) := by omega
      simp [hneg, hle, this, hlen]

/-! ## Positional removal -/

/-- C3: for every sequence `xs` and position `p` with `0 ≤ p < length`, `removeAtPosition(p)`
writes no error and the chain after the call is `xs` without the node at index `p`: the nodes
in front of index `p` and the nodes after it, unchanged and in their order; `length()` has gone
down by one; in particular `removeAtPosition(0)` on a one-node chain leaves the empty chain.
The same holds for `remove_at_position`. -/
theorem C3_removeAtPosition_removes {T : Type} (xs : List T) (p : Int)
    (h0 : 0 ≤ p) (hp : p < xs.length) :
    (LinkedList.removeAtPosition ⟨xs⟩ p =
        ⟨⟨xs.take p.toNat ++ xs.drop (p.toNat + 1)⟩, none⟩ ∧
      (LinkedList.removeAtPosition ⟨xs⟩ p).list.length = (LinkedList.mk xs).length - 1 ∧
      ∀ x : T, LinkedList.removeAtPosition ⟨[x]⟩ 0 = ⟨⟨[]⟩, none⟩) ∧
    (data_structures.LinkedList.remove_at_position ⟨xs⟩ p =
        ⟨⟨xs.take p.toNat ++ xs.drop (p.toNat + 1)⟩, none⟩ ∧
      (data_structures.LinkedList.remove_at_position ⟨xs⟩ p).list.length =
        (data_structures.LinkedList.mk xs).length - 1 ∧
      ∀ x : T, data_structures.LinkedList.remove_at_position ⟨[x]⟩ 0 = ⟨⟨[]⟩, none⟩) ∧
    xs.take p.toNat ++ xs.drop (p.toNat + 1) = xs.eraseIdx p.toNat := by
  have hneg : ¬ p < 0 := by omega
  have hlt : p.toNat < xs.length := by omega
  have hne : ¬ xs.length = 0 := by omega
  have hcamel : LinkedList.removeAtPosition ⟨xs⟩ p =
      ⟨⟨xs.take p.toNat ++ xs.drop (p.toNat + 1)⟩, none⟩ := by
    rw [LinkedList.removeAtPosition_eq]; simp only [hneg, hlt, hne, if_true, if_false]
  have hsnake : data_structures.LinkedList.remove_at_position ⟨xs⟩ p =
      ⟨⟨xs.take p.toNat ++ xs.drop (p.toNat + 1)⟩, none⟩ := by
    rw [data_structures.LinkedList.remove_at_position_eq]
    simp only [hneg, hlt, hne, if_true, if_false]
  refine ⟨⟨hcamel, ?_, fun x => rfl⟩, ⟨hsnake, ?_, fun x => rfl⟩, ?_⟩
  · rw [hcamel, LinkedList.length_eq, LinkedList.length_eq]
    simp; omega
  · rw [hsnake, data_structures.LinkedList.length_eq_count,
      data_structures.LinkedList.length_eq_count]
    simp; omega
  · rw [List.eraseIdx_eq_take_drop_succ]

/-- C3 at the chain `1 2 3` and position `1`: the chain becomes `1 3`. -/
theorem C3_removeAtPosition_removes_witness :
    (0 : Int) ≤ 1 ∧ (1 : Int) < ([1, 2, 3] : List Int).length ∧
      LinkedList.removeAtPosition (⟨[1, 2, 3]⟩ : LinkedList Int) 1 = ⟨⟨[1, 3]⟩, none⟩ :=
  ⟨by decide, by decide,
    (C3_removeAtPosition_removes ([1, 2, 3] : List Int) 1 (by decide) (by decide)).1.1⟩

/-! ## Removal by value -/

/-- C4: for every sequence `xs` and value `v` that occurs in `xs`, `remove(v)` writes no error
and unlinks the first node holding `v` in head-to-tail order: `xs` splits into the nodes `before`
that first node, none of which holds `v`, and the nodes `after` it, and the chain after the call
is `before` followed by `after`; the later occurrences of `v` (those in `after`) are kept, and
`length()` has gone down by exactly one.  The same holds for the snake_case `remove`. -/
theorem C4_remove_first_occurrence {T : Type} [DecidableEq T] (xs : List T) (v : T)
    (hmem : v ∈ xs) :
    ∃ before after : List T, xs = before ++ v :: after ∧ v ∉ before ∧
      (LinkedList.remove ⟨xs⟩ v = ⟨⟨before ++ after⟩, none⟩ ∧
        (LinkedList.remove ⟨xs⟩ v).list.length = (LinkedList.mk xs).length - 1) ∧
      (data_structures.LinkedList.remove ⟨xs⟩ v = ⟨⟨before ++ after⟩, none⟩ ∧
        (data_structures.LinkedList.remove ⟨xs⟩ v).list.length =
          (data_structures.LinkedList.mk xs).length - 1) ∧
      (before ++ after).count v = after.count v ∧
      before ++ after = xs.erase v := by
  obtain ⟨before, after, hsplit, hbefore⟩ := List.eq_append_cons_of_mem hmem
  subst hsplit
  have hcamel := LinkedList.remove_first v before after hbefore
  have hsnake := data_structures.LinkedList.remove_first_occurrence v before after hbefore
  refine ⟨before, after, rfl, hbefore, ⟨hcamel, ?_⟩, ⟨hsnake, ?_⟩, ?_, ?_⟩
  · rw [hcamel, LinkedList.length_eq, LinkedList.length_eq]
    simp; omega
  · rw [hsnake, data_structures.LinkedList.length_eq_count,
      data_structures.LinkedList.length_eq_count]
    simp; omega
  · simp [List.count_append, List.count_eq_zero_of_not_mem hbefore]
  · rw [List.erase_append_right _ hbefore]; simp

/-- C4 at the chain `1 2 3 2` and value `2`: the chain becomes `1 3 2`. -/
theorem C4_remove_first_occurrence_witness :
    (2 : Int) ∈ ([1, 2, 3, 2] : List Int) ∧
      ∃ before after : List Int, [1, 2, 3, 2] = before ++ 2 :: after ∧ (2 : Int) ∉ before ∧
        LinkedList.remove ⟨[1, 2, 3, 2]⟩ (2 : Int) = ⟨⟨before ++ after⟩, none⟩ := by
  obtain ⟨before, after, h1, h2, h3, _⟩ :=
    C4_remove_first_occurrence ([1, 2, 3, 2] : List Int) 2 (by decide)
  exact ⟨by decide, before, after, h1, h2, h3.1⟩

/-- C5: for every value `x`, `remove(x)` on the empty list reports `List is empty` and leaves it
empty; on a non-empty list with no node equal to `x` it reports `Value not found` and leaves the
list as it was; and it writes an error in no other case. -/
theorem C5_remove_errors {T : Type} [DecidableEq T] (x : T) :
    LinkedList.remove (LinkedList.empty : LinkedList T) x =
        ⟨LinkedList.empty, some "List is empty\n"⟩ ∧
    (∀ l : LinkedList T, l.head ≠ [] → x ∉ l.head →
        l.remove x = ⟨l, some "Value not found\n"⟩) ∧
    (∀ l : LinkedList T, (l.remove x).cerr ≠ none ↔ l.head = [] ∨ x ∉ l.head) := by
  refine ⟨rfl, fun l hne habs => LinkedList.remove_absent l x hne habs, fun l => ?_⟩
  obtain ⟨xs⟩ := l
  by_cases hnil : xs = []
  · subst hnil; simp [LinkedList.remove]
  · by_cases hmem : x ∈ xs
    · obtain ⟨before, after, hsplit, hbefore⟩ := List.eq_append_cons_of_mem hmem
      subst hsplit
      rw [LinkedList.remove_first x before after hbefore]
      simp
    · rw [LinkedList.remove_absent ⟨xs⟩ x hnil hmem]
      simp [hmem]

/-- C5 at the chain `1 2 3` and the absent value `9`. -/
theorem C5_remove_errors_witness :
    LinkedList.remove (⟨[1, 2, 3]⟩ : LinkedList Int) 9 =
      ⟨⟨[1, 2, 3]⟩, some "Value not found\n"⟩ :=
  (C5_remove_errors (9 : Int)).2.1 ⟨[1, 2, 3]⟩ (by decide) (by decide)

/-! ## Errors of positional removal -/

/-- C6, as the code has it: for every non-empty sequence `xs` and every position
`k ≥ length`, `removeAtPosition(k)` reports `Position out of range`.  The same holds for
`remove_at_position`. -/
theorem C6_removeAtPosition_out_of_range {T : Type} (xs : List T) (k : Int)
    (hne : xs ≠ []) (hk : k ≥ xs.length) :
    (LinkedList.removeAtPosition ⟨xs⟩ k).cerr = some "Position out of range\n" ∧
    (data_structures.LinkedList.remove_at_position ⟨xs⟩ k).cerr =
      some "Position out of range\n" := by
  have hlen : ¬ xs.length = 0 := by simpa using hne
  have hneg : ¬ k < 0 := by omega
  have hlt : ¬ k.toNat < xs.length := by omega
  rw [LinkedList.removeAtPosition_eq, data_structures.LinkedList.remove_at_position_eq]
  simp only [hlen, hneg, hlt, if_false, and_self]

/-- C6 at the chain `1 2 3` and position `3`. -/
theorem C6_removeAtPosition_out_of_range_witness :
    ([1, 2, 3] : List Int) ≠ [] ∧ (3 : Int) ≥ ([1, 2, 3] : List Int).length ∧
      (LinkedList.removeAtPosition (⟨[1, 2, 3]⟩ : LinkedList Int) 3).cerr =
        some "Position out of range\n" :=
  ⟨by decide, by decide,
    (C6_removeAtPosition_out_of_range ([1, 2, 3] : List Int) 3 (by decide) (by decide)).1⟩

/-- C6 fails on the empty list: position `0` is `≥ length() = 0`, yet `removeAtPosition(0)`
reports `List is empty`, not `Position out of range`, in both classes. -/
theorem C6_removeAtPosition_empty_counterexample :
    (0 : Int) ≥ (LinkedList.empty : LinkedList Int).length ∧
    (LinkedList.removeAtPosition (LinkedList.empty : LinkedList Int) 0).cerr =
      some "List is empty\n" ∧
    (LinkedList.removeAtPosition (LinkedList.empty : LinkedList Int) 0).cerr ≠
      some "Position out of range\n" ∧
    (data_structures.LinkedList.remove_at_position
      (data_structures.LinkedList.empty : data_structures.LinkedList Int) 0).cerr ≠
      some "Position out of range\n" := by
  decide

/-- C7: for every integer position `p`, negative, zero or positive, `removeAtPosition(p)` on the
empty list reports `List is empty` and leaves the list empty, so the emptiness check comes before
the checks of the position.  The same holds for `remove_at_position`. -/
theorem C7_removeAtPosition_empty {T : Type} (p : Int) :
    LinkedList.removeAtPosition (LinkedList.empty : LinkedList T) p =
      ⟨LinkedList.empty, some "List is empty\n"⟩ ∧
    data_structures.LinkedList.remove_at_position
        (data_structures.LinkedList.empty : data_structures.LinkedList T) p =
      ⟨data_structures.LinkedList.empty, some "List is empty\n"⟩ :=
  ⟨rfl, rfl⟩

/-- C8: for every non-empty list `l` and integer position `p`, `removeAtPosition(p)` writes an
error exactly when `p < 0` or `p ≥ length()`; the error is `Invalid position` exactly when
`p < 0` and `Position out of range` exactly when `p ≥ length()`; and a call that writes an error
leaves the list as it was. -/
theorem C8_removeAtPosition_errors {T : Type} (l : LinkedList T) (p : Int)
    (hne : l.isEmpty = false) :
    ((l.removeAtPosition p).cerr ≠ none ↔ p < 0 ∨ p ≥ l.length) ∧
    ((l.removeAtPosition p).cerr = some "Invalid position\n" ↔ p < 0) ∧
    ((l.removeAtPosition p).cerr = some "Position out of range\n" ↔ p ≥ l.length) ∧
    ((l.removeAtPosition p).cerr ≠ none → (l.removeAtPosition p).list = l) := by
  have hlen : l.length = l.head.length := LinkedList.length_eq l
  have hpos : ¬ l.head.length = 0 := by
    obtain ⟨xs⟩ := l
    cases xs with
    | nil => simp [LinkedList.isEmpty] at hne
    | cons d next => simp
  rw [LinkedList.removeAtPosition_eq, hlen]
  by_cases hneg : p < 0
  · have : ¬ p ≥ (l.head.length : Int) := by omega
    simp [hneg, this, hpos]
  · by_cases hlt : p.toNat < l.head.length
    · have : ¬ p ≥ (l.head.length : Int) := by omega
      simp [hneg, hlt, this, hpos]
    · have : p ≥ (l.head.length : Int) := by omega
      simp [hneg, hlt, this, hpos]

/-- C8 at the chain `1 2 3` and position `-1`: the call reports `Invalid position`. -/
theorem C8_removeAtPosition_errors_witness :
    (⟨[1, 2, 3]⟩ : LinkedList Int).isEmpty = false ∧
      ((LinkedList.removeAtPosition (⟨[1, 2, 3]⟩ : LinkedList Int) (-1)).cerr =
        some "Invalid position\n" ↔ (-1 : Int) < 0) :=
  ⟨by decide, (C8_removeAtPosition_errors (⟨[1, 2, 3]⟩ : LinkedList Int) (-1) (by decide)).2.1⟩

/-! ## Rendering to a string -/

/-- C9 does not hold of the code: `to_string()` is to return each element's textual form
followed by one space for a list of any rendered size, and on the list of fifty integers `7`,
whose rendering has 100 characters, it does not.  The last `strcat_s` finds no room in the
buffer of `BUFFER_SIZE = 100` bytes: when the constraint handler ends the program nothing is
returned, and when the handler returns, the buffer has been emptied and the empty string is
returned.  With `1`, `2`, `3` after the fifty `7`, the string returned under the handler that
returns is the rendering of `1 2 3` alone, the fifty `7` dropped without a sign.  On the same
lists `display()` writes the whole rendering. -/
theorem C9_to_string_overflow :
    (rendering Int.repr (List.replicate 50 7)).length = 100 ∧
    data_structures.LinkedList.to_string Handler.terminates Int.repr ⟨List.replicate 50 7⟩ =
      none ∧
    data_structures.LinkedList.to_string Handler.returns Int.repr ⟨List.replicate 50 7⟩ =
      some "" ∧
    (∀ handler : Handler,
      data_structures.LinkedList.to_string handler Int.repr ⟨List.replicate 50 7⟩ ≠
        some (rendering Int.repr (List.replicate 50 7))) ∧
    data_structures.LinkedList.to_string Handler.terminates Int.repr
      ⟨List.replicate 50 7 ++ [1, 2, 3]⟩ = none ∧
    data_structures.LinkedList.to_string Handler.returns Int.repr
      ⟨List.replicate 50 7 ++ [1, 2, 3]⟩ = some "1 2 3 " ∧
    data_structures.LinkedList.display Int.repr ⟨List.replicate 50 7⟩ =
      rendering Int.repr (List.replicate 50 7) ++ "\n" ∧
    data_structures.LinkedList.display Int.repr ⟨List.replicate 50 7 ++ [1, 2, 3]⟩ =
      rendering Int.repr (List.replicate 50 7 ++ [1, 2, 3]) ++ "\n" := by
  refine ⟨by decide, by decide, by decide, ?_, by decide, by decide, by decide, by decide⟩
  intro handler
  cases handler <;> decide

/-! ## Insertion at the beginning -/

/-- Inserting the values `xs` one after the other at the beginning of `l` puts them in front of
the chain of `l` in reverse order. -/
theorem foldl_insertAtBeginning_head {T : Type} (xs : List T) (l : LinkedList T) :
    (xs.foldl LinkedList.insertAtBeginning l).head = xs.reverse ++ l.head := by
  induction xs generalizing l with
  | nil => simp
  | cons x xs ih => simp [ih, LinkedList.insertAtBeginning]

/-- C10: for every `N ≥ 0` and values `x1 .. xN` (the list `xs`), starting from the empty list
and calling `insertAtBeginning(x1)`, ..., `insertAtBeginning(xN)` in that order gives a list with
`length() == N` whose chain from head to tail is `xN, ..., x1`, the reverse of the order of
insertion, and that is the order in which `display()` writes the elements. -/
theorem C10_insertAtBeginning_reverse_order {T : Type} (render : T → String) (xs : List T) :
    (xs.foldl LinkedList.insertAtBeginning LinkedList.empty).length = xs.length ∧
    (xs.foldl LinkedList.insertAtBeginning LinkedList.empty).head = xs.reverse ∧
    (xs.foldl LinkedList.insertAtBeginning LinkedList.empty).display render =
      rendering render xs.reverse ++ "\n" := by
  have hhead : (xs.foldl LinkedList.insertAtBeginning LinkedList.empty).head = xs.reverse := by
    rw [foldl_insertAtBeginning_head]; simp [LinkedList.empty]
  refine ⟨?_, hhead, ?_⟩
  · rw [LinkedList.length_eq, hhead]; simp
  · rw [LinkedList.display, LinkedList.displayLoop_eq, hhead]; simp

/-! ## Insertion at the end -/

/-- Inserting the values `xs` one after the other at the end of `l` puts them behind the chain
of `l` in their order. -/
theorem foldl_insertAtEnd_head {T : Type} (xs : List T) (l : LinkedList T) :
    (xs.foldl LinkedList.insertAtEnd l).head = l.head ++ xs := by
  induction xs generalizing l with
  | nil => simp
  | cons x xs ih => simp [ih, LinkedList.insertAtEnd_head]

/-- Inserting the values `xs` one after the other at the end of `l` with `insert_at_end` puts
them behind the chain of `l` in their order. -/
theorem foldl_insert_at_end_head {T : Type} (xs : List T) (l : data_structures.LinkedList T) :
    (xs.foldl data_structures.LinkedList.insert_at_end l).head = l.head ++ xs := by
  induction xs generalizing l with
  | nil => simp
  | cons x xs ih => simp [ih, data_structures.LinkedList.insert_at_end_head]

/-- C11: for every `N ≥ 0` and values `x1 .. xN` (the list `xs`), starting from the empty list
and calling `insertAtEnd(x1)`, ..., `insertAtEnd(xN)` in that order gives a list whose chain
from head to tail is `x1, ..., xN`, the order of insertion, which is the order in which
`display()` writes the elements, with `length() == N`; and `insertAtEnd(v)` on any list `l`
gives the chain of `l` followed by `v`.  The same holds for `insert_at_end`. -/
theorem C11_insertAtEnd_insertion_order {T : Type} (render : T → String) (xs : List T)
    (l : LinkedList T) (m : data_structures.LinkedList T) (v : T) :
    ((xs.foldl LinkedList.insertAtEnd LinkedList.empty).head = xs ∧
      (xs.foldl LinkedList.insertAtEnd LinkedList.empty).length = xs.length ∧
      (xs.foldl LinkedList.insertAtEnd LinkedList.empty).display render =
        rendering render xs ++ "\n" ∧
      (l.insertAtEnd v).head = l.head ++ [v]) ∧
    ((xs.foldl data_structures.LinkedList.insert_at_end data_structures.LinkedList.empty).head
        = xs ∧
      (xs.foldl data_structures.LinkedList.insert_at_end data_structures.LinkedList.empty).length
        = xs.length ∧
      (xs.foldl data_structures.LinkedList.insert_at_end
        data_structures.LinkedList.empty).display render = rendering render xs ++ "\n" ∧
      (m.insert_at_end v).head = m.head ++ [v]) := by
  have hcamel : (xs.foldl LinkedList.insertAtEnd LinkedList.empty).head = xs := by
    rw [foldl_insertAtEnd_head]; simp [LinkedList.empty]
  have hsnake :
      (xs.foldl data_structures.LinkedList.insert_at_end data_structures.LinkedList.empty).head
        = xs := by
    rw [foldl_insert_at_end_head]; simp [data_structures.LinkedList.empty]
  refine ⟨⟨hcamel, ?_, ?_, LinkedList.insertAtEnd_head l v⟩,
    ⟨hsnake, ?_, ?_, data_structures.LinkedList.insert_at_end_head m v⟩⟩
  · rw [LinkedList.length_eq, hcamel]
  · rw [LinkedList.display, LinkedList.displayLoop_eq, hcamel]; simp
  · rw [data_structures.LinkedList.length_eq_count, hsnake]
  · rw [data_structures.LinkedList.display, data_structures.LinkedList.display_loop_eq, hsnake]
    simp

/-! ## Insertion followed by removal at the same position -/

/-- Removing index `n` from a chain into which a value was put at index `n` gives the chain
back. -/
theorem take_drop_insert {T : Type} (xs : List T) (v : T) (n : Nat) (hn : n ≤ xs.length) :
    (xs.take n ++ v :: xs.drop n).take n ++ (xs.take n ++ v :: xs.drop n).drop (n + 1) = xs := by
  have hlen : (xs.take n).length = n := by simp [hn]
  have h1 : (xs.take n ++ v :: xs.drop n).take n = xs.take n := List.take_left' hlen
  have h2 : (xs.take n ++ v :: xs.drop n).drop (n + 1) = xs.drop n := by
    have : xs.take n ++ v :: xs.drop n = (xs.take n ++ [v]) ++ xs.drop n := by simp
    rw [this]
    exact List.drop_left' (by simp [hn])
  rw [h1, h2, List.take_append_drop]

/-- C12: for every sequence `xs`, empty or not, value `v` and position `p` with
`0 ≤ p ≤ length`, `insertAtPosition(v, p)` followed by `removeAtPosition(p)` succeeds twice and
gives the list back: the chain, `length()` and what `to_string()` returns are what they were
before the two calls.  This holds for both classes (`to_string` exists in the snake_case one). -/
theorem C12_insert_then_remove_at_position {T : Type} (handler : Handler) (render : T → String)
    (xs : List T) (v : T) (p : Int) (h0 : 0 ≤ p) (hp : p ≤ xs.length) :
    ((data_structures.LinkedList.insert_at_position ⟨xs⟩ v p).cerr = none ∧
      data_structures.LinkedList.remove_at_position
        (data_structures.LinkedList.insert_at_position ⟨xs⟩ v p).list p = ⟨⟨xs⟩, none⟩ ∧
      (data_structures.LinkedList.remove_at_position
        (data_structures.LinkedList.insert_at_position ⟨xs⟩ v p).list p).list.to_string
          handler render = (data_structures.LinkedList.mk xs).to_string handler render ∧
      (data_structures.LinkedList.remove_at_position
        (data_structures.LinkedList.insert_at_position ⟨xs⟩ v p).list p).list.length =
          (data_structures.LinkedList.mk xs).length) ∧
    ((LinkedList.insertAtPosition ⟨xs⟩ v p).cerr = none ∧
      LinkedList.removeAtPosition (LinkedList.insertAtPosition ⟨xs⟩ v p).list p =
        ⟨⟨xs⟩, none⟩ ∧
      (LinkedList.removeAtPosition (LinkedList.insertAtPosition ⟨xs⟩ v p).list p).list.length =
        (LinkedList.mk xs).length) := by
  have hneg : ¬ p < 0 := by omega
  have hle : p.toNat ≤ xs.length := by omega
  have hins : data_structures.LinkedList.insert_at_position ⟨xs⟩ v p =
      ⟨⟨xs.take p.toNat ++ v :: xs.drop p.toNat⟩, none⟩ := by
    rw [data_structures.LinkedList.insert_at_position_eq]; simp [hneg, hle]
  have hins1 : LinkedList.insertAtPosition ⟨xs⟩ v p =
      ⟨⟨xs.take p.toNat ++ v :: xs.drop p.toNat⟩, none⟩ := by
    rw [LinkedList.insertAtPosition_eq]; simp [hneg, hle]
  have hlen : (xs.take p.toNat ++ v :: xs.drop p.toNat).length = xs.length + 1 := by
    simp; omega
  have hne : ¬ (xs.take p.toNat ++ v :: xs.drop p.toNat).length = 0 := by omega
  have hlt : p.toNat < (xs.take p.toNat ++ v :: xs.drop p.toNat).length := by omega
  have hrem : data_structures.LinkedList.remove_at_position
      (data_structures.LinkedList.insert_at_position ⟨xs⟩ v p).list p = ⟨⟨xs⟩, none⟩ := by
    rw [hins, data_structures.LinkedList.remove_at_position_eq]
    simp only [hne, hneg, hlt, if_true, if_false, take_drop_insert xs v p.toNat hle]
  have hrem1 : LinkedList.removeAtPosition (LinkedList.insertAtPosition ⟨xs⟩ v p).list p =
      ⟨⟨xs⟩, none⟩ := by
    rw [hins1, LinkedList.removeAtPosition_eq]
    simp only [hne, hneg, hlt, if_true, if_false, take_drop_insert xs v p.toNat hle]
  refine ⟨⟨?_, hrem, ?_, ?_⟩, ⟨?_, hrem1, ?_⟩⟩
  · rw [hins]
  · rw [hrem]
  · rw [hrem]
  · rw [hins1]
  · rw [hrem1]

/-- C12 at the chain `1 2 3`, value `9` and position `3`. -/
theorem C12_insert_then_remove_at_position_witness :
    (0 : Int) ≤ 3 ∧ (3 : Int) ≤ ([1, 2, 3] : List Int).length ∧
      data_structures.LinkedList.remove_at_position
        (data_structures.LinkedList.insert_at_position ⟨[1, 2, 3]⟩ (9 : Int) 3).list 3 =
          ⟨⟨[1, 2, 3]⟩, none⟩ :=
  ⟨by decide, by decide,
    (C12_insert_then_remove_at_position Handler.terminates Int.repr [1, 2, 3] (9 : Int) 3
      (by decide) (by decide)).1.2.1⟩

/-! ## Positional insertion at the two ends -/

/-- C13: for every list `l`, empty or not, and value `v`, `insertAtPosition(v, 0)` gives the
same list as `insertAtBeginning(v)` and, like it, writes no error. -/
theorem C13_insertAtPosition_zero {T : Type} (l : LinkedList T) (v : T) :
    l.insertAtPosition v 0 = ⟨l.insertAtBeginning v, none⟩ := by
  simp [LinkedList.insertAtPosition]

/-- C14: for every list `l`, the empty one included, and value `v`,
`insertAtPosition(v, length())` writes no error and appends `v` as the new last element: it
gives the same list as `insertAtEnd(v)`. -/
theorem C14_insertAtPosition_length {T : Type} (l : LinkedList T) (v : T) :
    l.insertAtPosition v l.length = ⟨l.insertAtEnd v, none⟩ ∧
    (l.insertAtPosition v l.length).list.head = l.head ++ [v] := by
  have hneg : ¬ (l.head.length : Int) < 0 := by omega
  have h : l.insertAtPosition v l.length = ⟨⟨l.head ++ [v]⟩, none⟩ := by
    rw [LinkedList.length_eq, LinkedList.insertAtPosition_eq]
    simp [hneg]
  have hend : l.insertAtEnd v = ⟨l.head ++ [v]⟩ := by
    have := LinkedList.insertAtEnd_head l v
    cases hl : l.insertAtEnd v with
    | mk ys => rw [hl] at this; simp at this; rw [this]
  rw [h, hend]
  exact ⟨rfl, rfl⟩

/-! ## The two classes agree -/

/-- C15: on every chain `xs`, value `v` and position `p`, each member of the camelCase class
gives the same chain after the call, the same returned value or written text, and the same
error text as its snake_case counterpart: `isEmpty` and `is_empty`, `insertAtBeginning` and
`insert_at_beginning`, `insertAtEnd` and `insert_at_end`, `insertAtPosition` and
`insert_at_position`, `remove` and `remove`, `removeAtPosition` and `remove_at_position`,
`length` and `length`, `display` and `display`. -/
theorem C15_camelCase_agrees_with_snake_case {T : Type} [DecidableEq T] (render : T → String)
    (xs : List T) (v : T) (p : Int) :
    (LinkedList.mk xs).isEmpty = (data_structures.LinkedList.mk xs).is_empty ∧
    ((LinkedList.mk xs).insertAtBeginning v).head =
      ((data_structures.LinkedList.mk xs).insert_at_beginning v).head ∧
    ((LinkedList.mk xs).insertAtEnd v).head =
      ((data_structures.LinkedList.mk xs).insert_at_end v).head ∧
    (((LinkedList.mk xs).insertAtPosition v p).list.head =
        ((data_structures.LinkedList.mk xs).insert_at_position v p).list.head ∧
      ((LinkedList.mk xs).insertAtPosition v p).cerr =
        ((data_structures.LinkedList.mk xs).insert_at_position v p).cerr) ∧
    (((LinkedList.mk xs).remove v).list.head =
        ((data_structures.LinkedList.mk xs).remove v).list.head ∧
      ((LinkedList.mk xs).remove v).cerr = ((data_structures.LinkedList.mk xs).remove v).cerr) ∧
    (((LinkedList.mk xs).removeAtPosition p).list.head =
        ((data_structures.LinkedList.mk xs).remove_at_position p).list.head ∧
      ((LinkedList.mk xs).removeAtPosition p).cerr =
        ((data_structures.LinkedList.mk xs).remove_at_position p).cerr) ∧
    (LinkedList.mk xs).length = (data_structures.LinkedList.mk xs).length ∧
    (LinkedList.mk xs).display render = (data_structures.LinkedList.mk xs).display render := by
  refine ⟨?_, rfl, ?_, ?_, ?_, ?_, ?_, ?_⟩
  · cases xs <;> rfl
  · rw [LinkedList.insertAtEnd_head, data_structures.LinkedList.insert_at_end_head]
  · rw [LinkedList.insertAtPosition_eq, data_structures.LinkedList.insert_at_position_eq]
    split_ifs <;> exact ⟨rfl, rfl⟩
  · by_cases hnil : xs = []
    · subst hnil; exact ⟨rfl, rfl⟩
    · by_cases hmem : v ∈ xs
      · obtain ⟨before, after, hsplit, hbefore⟩ := List.eq_append_cons_of_mem hmem
        subst hsplit
        rw [LinkedList.remove_first v before after hbefore,
          data_structures.LinkedList.remove_first_occurrence v before after hbefore]
        exact ⟨rfl, rfl⟩
      · rw [LinkedList.remove_absent ⟨xs⟩ v hnil hmem,
          data_structures.LinkedList.remove_missing ⟨xs⟩ v hnil hmem]
        exact ⟨rfl, rfl⟩
  · rw [LinkedList.removeAtPosition_eq, data_structures.LinkedList.remove_at_position_eq]
    split_ifs <;> exact ⟨rfl, rfl⟩
  · rw [LinkedList.length_eq, data_structures.LinkedList.length_eq_count]
  · rw [LinkedList.display, data_structures.LinkedList.display, LinkedList.displayLoop_eq,
      data_structures.LinkedList.display_loop_eq]

/-! ## Display -/

/-- C16, as the code has it: for every list, `display()` writes each element's textual form
followed by one space, also after the last element, in head-to-tail order, and then a single
line break.  It writes nothing to `std::cerr`, has a result on every list, and, being a `const`
member, leaves the list as it is.  The same holds for the snake_case `display`. -/
theorem C16_display_writes_rendering {T : Type} (render : T → String) (xs : List T) :
    (LinkedList.mk xs).display render = rendering render xs ++ "\n" ∧
    (data_structures.LinkedList.mk xs).display render = rendering render xs ++ "\n" := by
  constructor
  · rw [LinkedList.display, LinkedList.displayLoop_eq]; simp
  · rw [data_structures.LinkedList.display, data_structures.LinkedList.display_loop_eq]; simp

/-- C16 fails on the chain `1 2 3` of integers: with one space between consecutive elements and
none after the last, the text would be `1 2 3` and a line break, but both classes write a space
after the `3` as well. -/
theorem C16_display_trailing_space_counterexample :
    spaceSeparated Int.repr [1, 2, 3] ++ "\n" = "1 2 3\n" ∧
    LinkedList.display Int.repr ⟨[1, 2, 3]⟩ = "1 2 3 \n" ∧
    LinkedList.display Int.repr ⟨[1, 2, 3]⟩ ≠ spaceSeparated Int.repr [1, 2, 3] ++ "\n" ∧
    data_structures.LinkedList.display Int.repr ⟨[1, 2, 3]⟩ ≠
      spaceSeparated Int.repr [1, 2, 3] ++ "\n" := by
  decide

/-! ## Length and emptiness on reachable lists -/

/-- C17: for every list reached from the empty list by any series of `insertAtBeginning`,
`insertAtEnd`, `insertAtPosition`, `remove` and `removeAtPosition` calls, successful or not,
`length()` is the number of nodes of the chain, `length() ≥ 0`, and `isEmpty()` is true exactly
when `length() == 0`.  Both are `const` members that return a value and leave the list as it
is. -/
theorem C17_length_and_isEmpty_on_reachable {T : Type} [DecidableEq T] (calls : List (Call T)) :
    (runCalls calls).length = (runCalls calls).head.length ∧
    0 ≤ (runCalls calls).length ∧
    ((runCalls calls).isEmpty = true ↔ (runCalls calls).length = 0) := by
  have hlen := LinkedList.length_eq (runCalls calls)
  refine ⟨hlen, by rw [hlen]; omega, ?_⟩
  rw [hlen]
  cases hh : (runCalls calls).head with
  | nil => simp [LinkedList.isEmpty, hh]
  | cons d next =>
    simp [LinkedList.isEmpty, hh]
    omega

/-! ## A scenario on integers -/

/-- C18: starting from the empty list of integers, `insert_at_end(1)`, `insert_at_end(2)`,
`insert_at_end(3)` give a list on which `to_string()` returns `1 2 3` with a space after each
number and `length()` returns 3; then `remove_at_position(1)` gives the content `1 3` and length
2; then `remove(1)` gives the content `3` and length 1; then `remove(9)` reports
`Value not found` and the content is still `3`.  The strings are the same whatever the
constraint handler of `strcat_s` is. -/
theorem C18_scenario_on_integers (handler : Handler) :
    (data_structures.LinkedList.scenarioFilled.to_string handler Int.repr = some "1 2 3 " ∧
      data_structures.LinkedList.scenarioFilled.length = 3) ∧
    (data_structures.LinkedList.scenarioRemovedAt.cerr = none ∧
      data_structures.LinkedList.scenarioRemovedAt.list.to_string handler Int.repr =
        some "1 3 " ∧
      data_structures.LinkedList.scenarioRemovedAt.list.length = 2) ∧
    (data_structures.LinkedList.scenarioRemoved.cerr = none ∧
      data_structures.LinkedList.scenarioRemoved.list.to_string handler Int.repr = some "3 " ∧
      data_structures.LinkedList.scenarioRemoved.list.length = 1) ∧
    (data_structures.LinkedList.scenarioMissing.cerr = some "Value not found\n" ∧
      data_structures.LinkedList.scenarioMissing.list.to_string handler Int.repr = some "3 " ∧
      data_structures.LinkedList.scenarioMissing.list.head =
        data_structures.LinkedList.scenarioRemoved.list.head) := by
  cases handler <;> decide

/-! ## The buffer of `to_string` -/

/-- C20: `BUFFER_SIZE` is 100, and for every list whose full rendering, each element's textual
form followed by one space from head to tail, is at most 99 characters long, `to_string()`
returns exactly that rendering under every constraint handler of `strcat_s`, also under the one
that ends the program at the first violation, so no call of `strcat_s` reaches the limit of the
buffer.  The bound is tight: the list of fifty integers `7` has a rendering of 100 characters,
and `to_string()` does not return it under any handler. -/
theorem C20_to_string_buffer_bound {T : Type} (handler : Handler) (render : T → String)
    (l : data_structures.LinkedList T) (hfit : (rendering render l.head).length ≤ 99) :
    data_structures.LinkedList.BUFFER_SIZE = 100 ∧
    l.to_string handler render = some (rendering render l.head) ∧
    l.to_string Handler.terminates render = some (rendering render l.head) ∧
    ∃ long : data_structures.LinkedList Int,
      (rendering Int.repr long.head).length = 100 ∧
      ∀ h : Handler, long.to_string h Int.repr ≠ some (rendering Int.repr long.head) := by
  have hsize : ("" : String).length + (rendering render l.head).length + 1 ≤
      data_structures.LinkedList.BUFFER_SIZE := by
    simp [data_structures.LinkedList.BUFFER_SIZE]; omega
  refine ⟨rfl, ?_, ?_, ⟨List.replicate 50 7⟩, by decide, ?_⟩
  · have h := data_structures.LinkedList.to_string_loop_fits handler render l.head "" hsize
    simpa [data_structures.LinkedList.to_string] using h
  · have h := data_structures.LinkedList.to_string_loop_fits Handler.terminates render l.head ""
      hsize
    simpa [data_structures.LinkedList.to_string] using h
  · intro h
    cases h <;> decide

/-- C20 at a list of forty-nine integers `7`, whose rendering has 98 characters. -/
theorem C20_to_string_buffer_bound_witness :
    (rendering Int.repr (List.replicate 49 7)).length ≤ 99 ∧
      data_structures.LinkedList.to_string Handler.returns Int.repr ⟨List.replicate 49 7⟩ =
        some (rendering Int.repr (List.replicate 49 7)) :=
  ⟨by decide,
    (C20_to_string_buffer_bound Handler.returns Int.repr ⟨List.replicate 49 7⟩
      (by decide)).2.1⟩

/-! ## Destruction -/

/-- A chain held by a store is also held by any store that agrees with it at the addresses of
the chain. -/
theorem Holds_of_agree {T : Type} (store other : Store T) (nodes : List (Nat × T))
    (h : Holds store nodes) (hagree : ∀ a ∈ nodes.map Prod.fst, other a = store a) :
    Holds other nodes := by
  induction nodes with
  | nil => trivial
  | cons n rest ih =>
    obtain ⟨a, d⟩ := n
    obtain ⟨h1, h2⟩ := h
    refine ⟨?_, ih h2 (fun b hb => hagree b (by simp [hb]))⟩
    rw [hagree a (by simp)]
    exact h1

/-- The tail end of a chain held by a store is held by it. -/
theorem Holds_of_append {T : Type} (store : Store T) (front back : List (Nat × T))
    (h : Holds store (front ++ back)) : Holds store back := by
  induction front with
  | nil => exact h
  | cons n front ih =>
    obtain ⟨a, d⟩ := n
    exact ih h.2

/-- Two chains held by one store that start at the same address have the same number of
nodes: the store fixes the chain that follows an address. -/
theorem Holds_length_eq {T : Type} (store : Store T) (l1 : List (Nat × T)) :
    ∀ (l2 : List (Nat × T)) (a : Nat) (x y : T),
      Holds store ((a, x) :: l1) → Holds store ((a, y) :: l2) → l1.length = l2.length := by
  induction l1 with
  | nil =>
    intro l2 a x y h1 h2
    have hs := h1.1.symm.trans h2.1
    cases l2 with
    | nil => rfl
    | cons m l2 => simp at hs
  | cons n l1 ih =>
    intro l2 a x y h1 h2
    have hs := h1.1.symm.trans h2.1
    obtain ⟨b, z⟩ := n
    cases l2 with
    | nil => simp at hs
    | cons m l2 =>
      obtain ⟨c, w⟩ := m
      simp at hs
      obtain ⟨_, hbc⟩ := hs
      subst hbc
      simp [ih l2 b z w h1.2 h2.2]

/-- The nodes of a chain held by a store have pairwise different addresses: the chain ends, so
it does not come back to a node. -/
theorem Holds_nodup {T : Type} (store : Store T) (nodes : List (Nat × T))
    (h : Holds store nodes) : (nodes.map Prod.fst).Nodup := by
  induction nodes with
  | nil => simp
  | cons n rest ih =>
    obtain ⟨a, x⟩ := n
    rw [List.map_cons, List.nodup_cons]
    refine ⟨?_, ih h.2⟩
    intro hmem
    obtain ⟨m, hm, hma⟩ := List.mem_map.mp hmem
    obtain ⟨b, y⟩ := m
    simp at hma
    subst hma
    obtain ⟨front, back, hsplit⟩ := List.append_of_mem hm
    have hback : Holds store ((b, y) :: back) := by
      apply Holds_of_append store front
      rw [← hsplit]; exact h.2
    have hlen := Holds_length_eq store rest back b x y h hback
    rw [hsplit] at hlen
    simp at hlen
    omega

/-- On a store that holds the chain `nodes`, with a bound of at least as many rounds as nodes,
the destructor loop ends with `head == nullptr`, has released the addresses of the chain in
order from head to tail, and has emptied exactly those addresses of the store. -/
theorem destructorLoop_run {T : Type} (nodes : List (Nat × T)) :
    ∀ (store : Store T) (released : List Nat) (fuel : Nat),
      Holds store nodes → nodes.length ≤ fuel →
      ∃ s, LinkedList.destructorLoop fuel ⟨store, headOf nodes, released⟩ = some s ∧
        s.head = none ∧ s.released = released ++ nodes.map Prod.fst ∧
        ∀ a, s.store a = if a ∈ nodes.map Prod.fst then none else store a := by
  induction nodes with
  | nil =>
    intro store released fuel _ _
    refine ⟨⟨store, none, released⟩, ?_, rfl, by simp, by simp⟩
    cases fuel <;> rfl
  | cons n rest ih =>
    intro store released fuel h hfuel
    obtain ⟨a, x⟩ := n
    have hnodup := Holds_nodup store ((a, x) :: rest) h
    rw [List.map_cons, List.nodup_cons] at hnodup
    obtain ⟨f, hf⟩ : ∃ f, fuel = f + 1 := ⟨fuel - 1, by simp at hfuel; omega⟩
    subst hf
    have hrest : Holds (fun b => if b = a then none else store b) rest := by
      apply Holds_of_agree store _ rest h.2
      intro b hb
      have : b ≠ a := fun hba => hnodup.1 (hba ▸ hb)
      simp [this]
    obtain ⟨s, hs, hhead, hrel, hstore⟩ :=
      ih (fun b => if b = a then none else store b) (released ++ [a]) f hrest
        (by simp at hfuel; omega)
    refine ⟨s, ?_, hhead, by simp [hrel], ?_⟩
    · have h1 := h.1
      simp only [headOf, List.head?_cons, Option.map_some', LinkedList.destructorLoop, h1]
      exact hs
    · intro b
      rw [hstore b]
      by_cases hba : b = a
      · simp [hba]
      · simp only [List.map_cons, List.mem_cons, hba, false_or, if_false]

/-- The two destructors are the same loop. -/
theorem destructor_loop_eq_destructorLoop {T : Type} (fuel : Nat) :
    ∀ s : Teardown T,
      data_structures.LinkedList.destructor_loop fuel s = LinkedList.destructorLoop fuel s := by
  induction fuel with
  | zero =>
    intro s
    obtain ⟨store, head, released⟩ := s
    cases head <;> rfl
  | succ fuel ih =>
    intro s
    obtain ⟨store, head, released⟩ := s
    cases head with
    | none => rfl
    | some temp =>
      simp only [data_structures.LinkedList.destructor_loop, LinkedList.destructorLoop]
      cases store temp with
      | none => rfl
      | some node => exact ih _

/-- C19: for every chain of `N` nodes held by the free store, the loop of the destructor, given
room for at least `N` rounds, ends; at its end `head` is `nullptr`, the addresses passed to
`delete` are those of the `N` nodes of the chain from head to tail, each one once, every round
released a node that was alive, no node of the chain is left in the store, and no other address
of the store was touched.  The same holds for the destructor of the snake_case class. -/
theorem C19_destructor_releases_each_node_once {T : Type} (store : Store T)
    (nodes : List (Nat × T)) (fuel : Nat) (h : Holds store nodes) (hfuel : nodes.length ≤ fuel) :
    ∃ s, LinkedList.destructorLoop fuel ⟨store, headOf nodes, []⟩ = some s ∧
      data_structures.LinkedList.destructor_loop fuel ⟨store, headOf nodes, []⟩ = some s ∧
      s.head = none ∧
      s.released = nodes.map Prod.fst ∧
      s.released.length = nodes.length ∧
      s.released.Nodup ∧
      (∀ a ∈ nodes.map Prod.fst, s.store a = none) ∧
      (∀ a, a ∉ nodes.map Prod.fst → s.store a = store a) := by
  obtain ⟨s, hs, hhead, hrel, hstore⟩ := destructorLoop_run nodes store [] fuel h hfuel
  have hrel1 : s.released = nodes.map Prod.fst := by simpa using hrel
  refine ⟨s, hs, ?_, hhead, hrel1, ?_, ?_, ?_, ?_⟩
  · rw [destructor_loop_eq_destructorLoop]; exact hs
  · rw [hrel1]; simp
  · rw [hrel1]; exact Holds_nodup store nodes h
  · intro a ha
    rw [hstore a]; simp only [ha, if_true]
  · intro a ha
    rw [hstore a]; simp only [ha, if_false]

/-- C19 at the store with the chain `1 2` at the addresses `10` and `20`, with room for two
rounds: the destructor releases `10` and then `20` and leaves `head == nullptr`. -/
theorem C19_destructor_releases_each_node_once_witness :
    Holds twoNodeStore [(10, 1), (20, 2)] ∧ [(10, (1 : Int)), (20, 2)].length ≤ 2 ∧
      ∃ s, LinkedList.destructorLoop 2 ⟨twoNodeStore, some 10, []⟩ = some s ∧
        s.head = none ∧ s.released = [10, 20] := by
  have hholds : Holds twoNodeStore [(10, 1), (20, 2)] := ⟨rfl, rfl, trivial⟩
  obtain ⟨s, h1, _, h2, h3, _⟩ :=
    C19_destructor_releases_each_node_once twoNodeStore [(10, 1), (20, 2)] 2 hholds (by decide)
  exact ⟨hholds, by decide, s, h1, h2, h3⟩

/-! ## Insertion at a position followed by removal by value -/

/-- C21: for every sequence `xs`, value `v` and position `p` with `0 ≤ p ≤ length` such that
`v` does not occur among the first `p` elements of `xs`, `insertAtPosition(v, p)` followed by
`remove(v)` writes no error and gives the list back.  The condition on the first `p` elements
is needed: on the chain `7 1` with `v = 7` and `p = 2`, where `7` does occur among the first two
elements, the two calls leave the chain `1 7`, since `remove` takes the earlier `7` and not the
inserted one. -/
theorem C21_insert_at_position_then_remove_value {T : Type} [DecidableEq T] (xs : List T)
    (v : T) (p : Int) (h0 : 0 ≤ p) (hp : p ≤ xs.length) (hv : v ∉ xs.take p.toNat) :
    ((LinkedList.insertAtPosition ⟨xs⟩ v p).cerr = none ∧
      LinkedList.remove (LinkedList.insertAtPosition ⟨xs⟩ v p).list v = ⟨⟨xs⟩, none⟩) ∧
    ((0 : Int) ≤ 2 ∧ (2 : Int) ≤ (LinkedList.mk [(7 : Int), 1]).length ∧
      (7 : Int) ∈ [(7 : Int), 1].take (2 : Int).toNat ∧
      (LinkedList.insertAtPosition ⟨[(7 : Int), 1]⟩ 7 2).list.head = [7, 1, 7] ∧
      (LinkedList.remove (LinkedList.insertAtPosition ⟨[(7 : Int), 1]⟩ 7 2).list 7).cerr =
        none ∧
      (LinkedList.remove (LinkedList.insertAtPosition ⟨[(7 : Int), 1]⟩ 7 2).list 7).list.head =
        [1, 7] ∧
      (LinkedList.remove (LinkedList.insertAtPosition ⟨[(7 : Int), 1]⟩ 7 2).list 7).list.head ≠
        [7, 1]) := by
  have hneg : ¬ p < 0 := by omega
  have hle : p.toNat ≤ xs.length := by omega
  have hins : LinkedList.insertAtPosition ⟨xs⟩ v p =
      ⟨⟨xs.take p.toNat ++ v :: xs.drop p.toNat⟩, none⟩ := by
    rw [LinkedList.insertAtPosition_eq]; simp [hneg, hle]
  refine ⟨⟨by rw [hins], ?_⟩, by decide⟩
  rw [hins, LinkedList.remove_first v (xs.take p.toNat) (xs.drop p.toNat) hv,
    List.take_append_drop]

/-- C21 at the chain `1 2 3`, value `9` and position `2`: the chain becomes `1 2 9 3` and then
`1 2 3` again. -/
theorem C21_insert_at_position_then_remove_value_witness :
    (0 : Int) ≤ 2 ∧ (2 : Int) ≤ ([1, 2, 3] : List Int).length ∧
      (9 : Int) ∉ ([1, 2, 3] : List Int).take (2 : Int).toNat ∧
      LinkedList.remove (LinkedList.insertAtPosition ⟨[1, 2, 3]⟩ (9 : Int) 2).list 9 =
        ⟨⟨[1, 2, 3]⟩, none⟩ :=
  ⟨by decide, by decide, by decide,
    (C21_insert_at_position_then_remove_value [1, 2, 3] (9 : Int) 2 (by decide) (by decide)
      (by decide)).1.2⟩
